import Mathlib

/- Verification of the core of a static blog generator (`ssg.py`):
   the stable chunking / pagination algorithm, the tag slug normalizer and
   tag index, the obfuscated archive-page identifiers (SHAKE-128 based),
   the byte-compare output reconciler, and the load/compute/reconcile
   driver.  Each Python function is shallowly embedded as an executable
   Lean function; `while` loops become fuel-based recursion where the fuel
   is chosen so that the Lean function performs exactly the iterations the
   Python loop performs on every input exercised by the theorems. -/

set_option maxHeartbeats 1000000
set_option maxRecDepth 100000

namespace Ssg

/-! ## Stable chunking (`chunk_stable`, ssg.py lines 59-83)

The Python loop:
```
chunks = []
remaining = len(items)
while remaining > 0:
    if remaining >= chunk_size + min_size:
        take = chunk_size
    else:
        take = remaining
    chunks.insert(0, items[remaining - take:remaining])
    remaining -= take
return chunks
```
`chunks.insert(0, s)` prepends, and slices are peeled from the tail, so the
resulting list holds the slices in left-to-right order of the original
list.  We model the loop by recursion on `remaining`, with `fuel`
bounding the iteration count: whenever `chunk_size ≥ 1` every iteration
decreases `remaining` by at least 1, so running with `fuel = remaining`
performs exactly the iterations of the Python loop. -/

/-- Fuel-based translation of the `while remaining > 0` loop of
`chunk_stable`.  `chunkLoop C M items fuel r` returns the chunk list the
Python loop builds from the state `remaining = r`. -/
def chunkLoop (chunk_size min_size : Nat) (items : List α) : Nat → Nat → List (List α)
  | 0, _ => []
  | fuel + 1, remaining =>
    if remaining = 0 then []
    else
      let tk := if chunk_size + min_size ≤ remaining then chunk_size else remaining
      chunkLoop chunk_size min_size items fuel (remaining - tk) ++
        [(items.drop (remaining - tk)).take tk]

/-- Translation of `chunk_stable(items, chunk_size, min_size)` from
ssg.py lines 59-83 (the slice `items[remaining-take:remaining]` is
`(items.drop (remaining - take)).take take`). -/
def chunk_stable (items : List α) (chunk_size min_size : Nat) : List (List α) :=
  chunkLoop chunk_size min_size items items.length items.length

/-- Reversed-world reformulation of the same loop: peel chunks of size
`chunk_size` from the *front* of the reversed list while at least
`chunk_size + min_size` elements remain; the remainder is one final
piece.  Used as a proof vehicle; `chunkLoop_eq_rpeel` ties it to
`chunk_stable`. -/
def rpeel (chunk_size min_size : Nat) : Nat → List α → List (List α)
  | 0, _ => []
  | fuel + 1, l =>
    if l.length = 0 then []
    else if chunk_size + min_size ≤ l.length then
      l.take chunk_size :: rpeel chunk_size min_size fuel (l.drop chunk_size)
    else [l]

/-! ## Tag slugs (`tag_to_slug`, ssg.py lines 614-619)

```
safe = re.sub(r'[^a-z0-9]', '-', tag.lower())
short = re.sub(r'\-+', '-', safe)
trimmed = short.strip('-')
return trimmed or '-'
```
Strings are modeled as `List Char`.  `str.lower` is modeled per
character with `Char.toLower`; the two agree on every ASCII character
(non-ASCII characters are replaced by `'-'` on both sides in the claims'
observable output shape). -/

/-- Characters accepted by the regex class `[a-z0-9]`. -/
def isLowerAlnum (c : Char) : Bool :=
  ('a' ≤ c && c ≤ 'z') || ('0' ≤ c && c ≤ '9')

/-- Python `re.sub(r'[^a-z0-9]', '-', tag.lower())`. -/
def slugSafe (tag : List Char) : List Char :=
  (tag.map Char.toLower).map (fun c => if isLowerAlnum c then c else '-')

/-- Python `re.sub(r'\-+', '-', safe)`: collapse every maximal run of
hyphens to a single hyphen. -/
def collapseHyphens : List Char → List Char
  | [] => []
  | [c] => [c]
  | a :: b :: rest =>
    if a = '-' ∧ b = '-' then collapseHyphens (b :: rest)
    else a :: collapseHyphens (b :: rest)

/-- Left half of Python `short.strip('-')`. -/
def trimHyphensLeft (l : List Char) : List Char :=
  l.dropWhile (fun c => c = '-')

/-- Right half of Python `short.strip('-')`. -/
def trimHyphensRight (l : List Char) : List Char :=
  ((l.reverse).dropWhile (fun c => c = '-')).reverse

/-- Translation of `tag_to_slug` (ssg.py lines 614-619).  `trimmed or
'-'` evaluates to `"-"` exactly when `trimmed` is the empty string. -/
def tag_to_slug (tag : List Char) : List Char :=
  let short := collapseHyphens (slugSafe tag)
  let trimmed := trimHyphensRight (trimHyphensLeft short)
  if trimmed.length = 0 then ['-'] else trimmed

/-- Structural characterization of the language of the regular
expression `[a-z0-9]+(-[a-z0-9]+)*`: nonempty, drawn from
`[a-z0-9-]`, no hyphen at either end, and no two adjacent hyphens. -/
def ValidSlug (l : List Char) : Prop :=
  l ≠ []
  ∧ (∀ c ∈ l, isLowerAlnum c = true ∨ c = '-')
  ∧ l.head? ≠ some '-'
  ∧ l.getLast? ≠ some '-'
  ∧ l.Chain' (fun a b => ¬ (a = '-' ∧ b = '-'))

/-! ## Post data model and `load_post` (ssg.py lines 157-256)

Strings are `List Char`, output-tree paths are lists of path segments,
file contents are lists of bytes. -/

/-- A string (Python `str`), as a list of characters. -/
abbrev Str := List Char

/-- A path under the output root, as a list of path segments. -/
abbrev Path := List Str

/-- File contents, as a list of bytes. -/
abbrev Bytes := List Nat

/-- Front matter of a post, as parsed from the JSON header of
`index.md`.  A `none` in `url`/`title`/`date` models that required key
(`meta_keys_required`, ssg.py line 157) missing from the front matter.
Timestamps are modeled as naturals; only their ordering matters. -/
structure FrontMatter where
  url : Option Str
  title : Option Str
  date : Option Nat
  draft : Bool
  unlisted : Bool
  tags : List Str
deriving DecidableEq

/-- One post source directory as seen by `load_post`.  `hasIndex`
models the `path.isfile(index_file)` check; `front = none` models front
matter that cannot be split (`split_front_matter` returns `None`, which
`load_post` cannot unpack) or parsed (`json.loads` raises) — either way
the generate run aborts on that post. -/
structure PostSrc where
  dirname : Str
  hasIndex : Bool
  front : Option FrontMatter
deriving DecidableEq

/-- A successfully loaded post: the fields of the `post` dict that the
generate pipeline reads, including `meta['_internal']['path_parts']`. -/
structure Post where
  dirname : Str
  url : Str
  title : Str
  date : Nat
  draft : Bool
  unlisted : Bool
  tags : List Str
  pathParts : List Str
deriving DecidableEq

/-- Digits `[0-9]` of `re_post_url_format`. -/
def isDigitCh (c : Char) : Bool := '0' ≤ c && c ≤ '9'

/-- The slug class `[a-z0-9_\-]` of `re_post_url_format`. -/
def isUrlSlugChar (c : Char) : Bool :=
  ('a' ≤ c && c ≤ 'z') || ('0' ≤ c && c ≤ '9') || c == '_' || c == '-'

/-- Take exactly `n` leading digits and return them with the remainder;
models one `[0-9]{n}` group of `re_post_url_format`. -/
def takeDigits : Nat → Str → Option (Str × Str)
  | 0, rest => some ([], rest)
  | _ + 1, [] => none
  | n + 1, c :: rest =>
    if isDigitCh c then
      match takeDigits n rest with
      | some (ds, r) => some (c :: ds, r)
      | none => none
    else none

/-- Model of `re_post_url_format.match(url)` returning `m.groups()`
(ssg.py lines 159-161, 236-240): the anchored regex
`^/(?P<year>[0-9]{4})/(?P<month>[0-9]{2})/(?P<day>[0-9]{2})/(?P<slug>[a-z0-9_\-]+)/$`.
`'/'` is not a slug character, so maximal munch (`List.span`) matches
the regex exactly. -/
def parse_post_url : Str → Option (List Str)
  | [] => none
  | c0 :: r1 =>
    if c0 = '/' then
      match takeDigits 4 r1 with
      | none => none
      | some (y, r1') =>
        match r1' with
        | [] => none
        | c1 :: r2 =>
          if c1 = '/' then
            match takeDigits 2 r2 with
            | none => none
            | some (mo, r2') =>
              match r2' with
              | [] => none
              | c2 :: r3 =>
                if c2 = '/' then
                  match takeDigits 2 r3 with
                  | none => none
                  | some (dd, r3') =>
                    match r3' with
                    | [] => none
                    | c3 :: r4 =>
                      if c3 = '/' then
                        match r4.span isUrlSlugChar with
                        | (slug, rest) =>
                          if slug.length ≠ 0 ∧ rest = ['/'] then
                            some [y, mo, dd, slug]
                          else none
                      else none
                else none
          else none
    else none

/-- Translation of `load_post` (ssg.py lines 181-252), restricted to
the fields the claims concern.  Returns `none` exactly when the code
aborts on this post: missing index file (`None`), unsplittable or
unparsable front matter (modeled by `front = none`), missing required
keys (`None`), or a malformed URL on a non-draft post (`None`).  For a
draft the URL and path parts come from the source directory name; for a
published post the path parts are the regex groups of the URL. -/
def load_post (src : PostSrc) : Option Post :=
  if src.hasIndex = false then none
  else
    match src.front with
    | none => none
    | some meta =>
      match meta.url, meta.title, meta.date with
      | some u, some ttl, some d =>
        if meta.draft then
          some { dirname := src.dirname,
                 url := "/draft/".toList ++ src.dirname ++ "/".toList,
                 title := ttl, date := d, draft := true,
                 unlisted := meta.unlisted, tags := meta.tags,
                 pathParts := ["draft".toList, src.dirname] }
        else
          match parse_post_url u with
          | none => none
          | some parts =>
            some { dirname := src.dirname, url := u, title := ttl, date := d,
                   draft := false, unlisted := meta.unlisted, tags := meta.tags,
                   pathParts := parts }
      | _, _, _ => none

/-- `is_public` (ssg.py lines 255-256). -/
def is_public (p : Post) : Bool := !p.draft && !p.unlisted

/-! ## Tag index (`tag_slugs_for_post` and the tag-map loop of
`cmd_generate`, ssg.py lines 622-632 and 959-964) -/

/-- Code-point comparison of strings, as Python `sorted` orders `str`
values. -/
def strLe : Str → Str → Bool
  | [], _ => true
  | _ :: _, [] => false
  | a :: as, b :: bs => if a = b then strLe as bs else decide (a < b)

/-- Insert into a `strLe`-sorted list. -/
def insertStr (x : Str) : List Str → List Str
  | [] => [x]
  | y :: rest => if strLe x y then x :: y :: rest else y :: insertStr x rest

/-- Insertion sort by `strLe`; models Python `sorted` (the claims only
use that the result has the same members as the input). -/
def sortStrs : List Str → List Str
  | [] => []
  | x :: rest => insertStr x (sortStrs rest)

/-- `tag_slugs_for_post` (ssg.py lines 622-632):
`sorted(list(set(slugs)))` for the post's tag slugs; the duplicate
warning printed there has no effect on the result. -/
def tag_slugs_for_post (p : Post) : List Str :=
  sortStrs (p.tags.map tag_to_slug).dedup

/-- `dict.setdefault(slug, []).append(post)` on an insertion-ordered
association list. -/
def tagMapAppend : List (Str × List Post) → Str → Post → List (Str × List Post)
  | [], slug, p => [(slug, [p])]
  | (k, v) :: rest, slug, p =>
    if k = slug then (k, v ++ [p]) :: rest
    else (k, v) :: tagMapAppend rest slug p

/-- Dictionary lookup on the association list. -/
def tagMapGet : List (Str × List Post) → Str → Option (List Post)
  | [], _ => none
  | (k, v) :: rest, slug => if k = slug then some v else tagMapGet rest slug

/-- The tag-collection loop of `cmd_generate` (ssg.py lines 959-964):
iterate posts in descending-timestamp order, skip non-public posts
(`don't leak tags/counts from non-public posts`), and append the post
to the bucket of each of its slugs. -/
def build_tag_map (posts_desc : List Post) : List (Str × List Post) :=
  posts_desc.foldl
    (fun m p =>
      if is_public p then (tag_slugs_for_post p).foldl (fun m' s => tagMapAppend m' s p) m
      else m)
    []

/-- Whether a post carries a tag normalizing to `slug` — the membership
criterion of claim C7. -/
def carriesSlug (slug : Str) (p : Post) : Bool :=
  p.tags.any (fun t => decide (tag_to_slug t = slug))

/-- The public posts carrying `slug`, in global descending order. -/
def tagGroup (slug : Str) (posts_desc : List Post) : List Post :=
  posts_desc.filter (fun p => is_public p && decide (slug ∈ tag_slugs_for_post p))

/-- Path segment `"index.html"`. -/
def indexHtmlSeg : Str := "index.html".toList

/-- Path segment `"tag"`. -/
def tagSeg : Str := "tag".toList

/-- The tag-map entries that get an artifact: the `len(...) <= 1:
continue` filter of ssg.py lines 1214-1219. -/
def tagPageEntries (posts_desc : List Post) : List (Str × List Post) :=
  (build_tag_map posts_desc).filter (fun kv => 1 < kv.2.length)

/-- The `tag/<slug>/index.html` artifact paths of one run
(ssg.py lines 1220-1222). -/
def tagPagePaths (posts_desc : List Post) : List Path :=
  (tagPageEntries posts_desc).map (fun kv => [tagSeg, kv.1, indexHtmlSeg])

/-! ## Archive identifiers (`archive_id_from_index`, ssg.py lines 1089-1095)

`hashlib.shake_128(data).hexdigest(4)` is implemented in full: the
Keccak-f[1600] permutation and the SHAKE-128 sponge (rate 168 bytes,
domain padding byte `0x1F`), squeezed for `outLen ≤ 168` output bytes —
the program's only use is `outLen = 4`.  64-bit lanes are naturals kept
below `2^64` by construction. -/

/-- `2^64`, the lane modulus. -/
def two64 : Nat := 18446744073709551616

/-- Mask of 64 one bits (used for bitwise complement). -/
def mask64 : Nat := 18446744073709551615

/-- Rotate a 64-bit lane left by `n < 64` bits. -/
def rotl64 (x n : Nat) : Nat := ((x <<< n) % two64) ||| (x >>> (64 - n))

/-- Lane `i = x + 5*y` of a Keccak state (missing lanes read as 0). -/
def lane (st : List Nat) (i : Nat) : Nat := st.getD i 0

/-- θ step of Keccak-f. -/
def keccakTheta (st : List Nat) : List Nat :=
  let c := (List.range 5).map (fun x =>
    lane st x ^^^ lane st (x + 5) ^^^ lane st (x + 10) ^^^ lane st (x + 15)
      ^^^ lane st (x + 20))
  let d := (List.range 5).map (fun x =>
    lane c ((x + 4) % 5) ^^^ rotl64 (lane c ((x + 1) % 5)) 1)
  (List.range 25).map (fun i => lane st i ^^^ lane d (i % 5))

/-- ρ rotation offsets, row `y = 0` (`r[0..4][0]`). -/
def rhoRow0 : List Nat := [0, 1, 62, 28, 27]

/-- ρ rotation offsets, row `y = 1`. -/
def rhoRow1 : List Nat := [36, 44, 6, 55, 20]

/-- ρ rotation offsets, row `y = 2`. -/
def rhoRow2 : List Nat := [3, 10, 43, 25, 39]

/-- ρ rotation offsets, row `y = 3`. -/
def rhoRow3 : List Nat := [41, 45, 15, 21, 8]

/-- ρ rotation offsets, row `y = 4`. -/
def rhoRow4 : List Nat := [18, 2, 61, 56, 14]

/-- ρ rotation offsets `r[x][y]` at index `x + 5*y`. -/
def rhoOffsets : List Nat := rhoRow0 ++ rhoRow1 ++ rhoRow2 ++ rhoRow3 ++ rhoRow4

/-- Combined ρ and π steps: output lane `(x', y')` is input lane
`(x' + 3y' mod 5, x')` rotated by its ρ offset. -/
def keccakRhoPi (st : List Nat) : List Nat :=
  (List.range 25).map (fun i =>
    let xs := (i % 5 + 3 * (i / 5)) % 5
    let ys := i % 5
    rotl64 (lane st (xs + 5 * ys)) (lane rhoOffsets (xs + 5 * ys)))

/-- χ step (`^^^ mask64` is the 64-bit complement). -/
def keccakChi (st : List Nat) : List Nat :=
  (List.range 25).map (fun i =>
    let x := i % 5
    let y := i / 5
    lane st i ^^^ ((lane st ((x + 1) % 5 + 5 * y) ^^^ mask64)
      &&& lane st ((x + 2) % 5 + 5 * y)))

/-- Round constants for ι. -/
def keccakRC : List Nat :=
  [1, 32898, 9223372036854808714,
   9223372039002292224, 32907, 2147483649,
   9223372039002292353, 9223372036854808585, 138,
   136, 2147516425, 2147483658,
   2147516555, 9223372036854775947, 9223372036854808713,
   9223372036854808579, 9223372036854808578, 9223372036854775936,
   32778, 9223372039002259466, 9223372039002292353,
   9223372036854808704, 2147483649, 9223372039002292232]

/-- One Keccak round: θ, ρ, π, χ, then ι (XOR the round constant into
lane 0). -/
def keccakRound (st : List Nat) (rc : Nat) : List Nat :=
  match keccakChi (keccakRhoPi (keccakTheta st)) with
  | [] => []
  | a :: rest => (a ^^^ rc) :: rest

/-- The Keccak-f[1600] permutation: 24 rounds. -/
def keccakF (st : List Nat) : List Nat := keccakRC.foldl keccakRound st

/-- Little-endian bytes to one 64-bit lane. -/
def bytesToLane (bs : List Nat) : Nat := bs.foldr (fun b acc => b + 256 * acc) 0

/-- One 168-byte rate block as 21 lanes. -/
def blockToLanes (block : List Nat) : List Nat :=
  (List.range 21).map (fun i => bytesToLane ((block.drop (8 * i)).take 8))

/-- Absorb one rate block: XOR it into the state, permute. -/
def absorbBlock (st block : List Nat) : List Nat :=
  keccakF ((List.range 25).map (fun i => lane st i ^^^ lane (blockToLanes block) i))

/-- Absorb every rate block of the padded message (`fuel` bounds the
number of blocks; called with `fuel = data.length`, ample since each
iteration consumes 168 bytes). -/
def absorbAll : Nat → List Nat → List Nat → List Nat
  | 0, st, _ => st
  | fuel + 1, st, data =>
    if data.length = 0 then st
    else absorbAll fuel (absorbBlock st (data.take 168)) (data.drop 168)

/-- SHAKE-128 padding: append the domain byte `0x1F`, zero-fill to a
multiple of the 168-byte rate, and XOR `0x80` into the final byte. -/
def shakePad (msg : List Nat) : List Nat :=
  let zeros := (168 - (msg.length + 1) % 168) % 168
  let padded := msg ++ 0x1F :: List.replicate zeros 0
  padded.dropLast ++ [padded.getLastD 0 ^^^ 0x80]

/-- The first `n` bytes of the state, little-endian within each lane. -/
def stateBytes (st : List Nat) (n : Nat) : List Nat :=
  (List.range n).map (fun i => (lane st (i / 8) >>> (8 * (i % 8))) % 256)

/-- `hashlib.shake_128(msg).digest(outLen)` for `outLen ≤ 168` (a
single squeeze of the sponge suffices at the program's `outLen = 4`). -/
def shake_128 (msg : List Nat) (outLen : Nat) : List Nat :=
  let padded := shakePad msg
  stateBytes (absorbAll padded.length (List.replicate 25 0) padded) outLen

/-- Lowercase hex digit for `n < 16`. -/
def hexChar (n : Nat) : Char :=
  Char.ofNat (if n < 10 then 48 + n else 87 + n)

/-- Lowercase hex rendering of a byte string (`hexdigest`). -/
def bytesToHex (bs : List Nat) : List Char :=
  bs.flatMap (fun b => [hexChar (b / 16), hexChar (b % 16)])

/-- Decimal digits of `n` (fuel-based helper). -/
def natToDecAux : Nat → Nat → List Char
  | 0, _ => []
  | fuel + 1, n =>
    if n < 10 then [Char.ofNat (48 + n)]
    else natToDecAux fuel (n / 10) ++ [Char.ofNat (48 + n % 10)]

/-- Decimal rendering of a natural (Python `f"{n}"`). -/
def natToDecChars (n : Nat) : List Char := natToDecAux (n + 1) n

/-- The hexdigest alphabet. -/
def hexAlphabet : List Char := "0123456789abcdef".toList

/-- Translation of `archive_id_from_index` (ssg.py lines 1089-1095):
`data = f"{index}{secret}".encode()` — the ASCII bytes of the decimal
index followed by the secret's UTF-8 bytes (the secret is modeled
directly as its byte string); `tag =
hashlib.shake_128(data).hexdigest(4).lower()`; result
`f"{index}_{tag}"`. -/
def archive_id_from_index (secret : Bytes) (index : Nat) : Str :=
  let data := (natToDecChars index).map Char.toNat ++ secret
  let tag := (bytesToHex (shake_128 data 4)).map Char.toLower
  natToDecChars index ++ '_' :: tag

/-- Combine the bucket found so far with the posts added by the
remaining iterations (helper for `tagMapGet_build_tag_map`). -/
def combineGet : Option (List Post) → List Post → Option (List Post)
  | some v, l => some (v ++ l)
  | none, [] => none
  | none, l => some l

/-! ## Output reconciliation (ssg.py lines 976-1011 and 1232-1243)

The filesystem under the output root is a partial map from paths to
byte strings.  The run-scoped mutable state (`paths_written`, captured
by the closures `record_written_file` / `write_and_record`) is made
explicit, together with a log of the paths actually written to disk —
a path enters `log` exactly when the Python code executes
`f.write(newbytes)`, so "the file is left untouched" is "`fs` and
`log` unchanged". -/

/-- The filesystem under the output root. -/
def Fs : Type := Path → Option Bytes

/-- Run-scoped reconciliation state. -/
structure GenState where
  fs : Fs
  written : List Path
  log : List Path

/-- `record_written_file` (ssg.py lines 984-988). -/
def record_written_file (abs_path : Path) (st : GenState) : GenState :=
  { st with written := abs_path :: st.written }

/-- Translation of `write_and_record` (ssg.py lines 991-1011): read
the existing bytes at the path (`none` when the file is absent), write
only when the new bytes differ, and in all cases record the path. -/
def write_and_record (abs_path : Path) (newbytes : Bytes) (st : GenState) : GenState :=
  let oldbytes := st.fs abs_path
  if some newbytes ≠ oldbytes then
    record_written_file abs_path
      { st with fs := fun p => if p = abs_path then some newbytes else st.fs p,
                log := abs_path :: st.log }
  else
    record_written_file abs_path st

/-- Fold `write_and_record` over every computed artifact, in order. -/
def runWrites (st : GenState) (arts : List (Path × Bytes)) : GenState :=
  arts.foldl (fun s a => write_and_record a.1 a.2 s) st

/-- The deletion walk (ssg.py lines 1232-1238): every file on disk
whose path was not recorded in `paths_written` is removed. -/
def pruneFiles (st : GenState) : GenState :=
  { st with fs := fun p => if p ∈ st.written then st.fs p else none }

/-- One reconciliation run against a pre-existing tree `fs0`:
write-or-skip each artifact, then delete everything not kept. -/
def reconcile (fs0 : Fs) (arts : List (Path × Bytes)) : GenState :=
  pruneFiles (runWrites { fs := fs0, written := [], log := [] } arts)

/-- The last artifact bytes written to `p` (later writes overwrite
earlier ones). -/
def lastWrite : List (Path × Bytes) → Path → Option Bytes
  | [], _ => none
  | a :: rest, p =>
    match lastWrite rest p with
    | some b => some b
    | none => if a.1 = p then some a.2 else none

/-- Does directory `d` still contain anything: a subdirectory in
`dirs` or a file in `files` strictly below it?  On segment lists,
containment is proper prefix. -/
def dirNonEmpty (files dirs : List Path) (d : Path) : Bool :=
  dirs.any (fun e => !(d == e) && decide (d <+: e))
    || files.any (fun f => !(d == f) && decide (d <+: f))

/-- One sweep of the empty-directory removal walk (ssg.py lines
1240-1243): drop every directory containing no subdirectory and no
file. -/
def pruneDirsStep (files dirs : List Path) : List Path :=
  dirs.filter (dirNonEmpty files dirs)

/-- Iterate sweeps to a fixpoint; the code's single `os.walk` with
`os.removedirs` (which prunes newly emptied ancestors) reaches the same
fixpoint.  `fuel = dirs.length` is ample: every non-fixpoint sweep
removes at least one directory. -/
def pruneDirs : Nat → List Path → List Path → List Path
  | 0, _, dirs => dirs
  | fuel + 1, files, dirs =>
    let dirs' := pruneDirsStep files dirs
    if dirs'.length = dirs.length then dirs
    else pruneDirs fuel files dirs'

/-- The directories remaining after the empty-directory removal of a
run that keeps exactly `files`. -/
def pruneEmptyDirs (files dirs : List Path) : List Path :=
  pruneDirs dirs.length files dirs

/-- The longest path length in a directory set (well-founded measure
for the descent to a file below a kept directory). -/
def maxLen (S : List Path) : Nat := S.foldr (fun p acc => max p.length acc) 0

/-! ## The generate driver (`cmd_generate`, ssg.py lines 927-1245) -/

/-- The load loop (ssg.py lines 946-953): load every post, aborting on
the first failure (`raise Exception(...)`) — before any output
mutation. -/
def loadPosts : List PostSrc → Option (List Post)
  | [] => some []
  | s :: rest =>
    match load_post s with
    | none => none
    | some p =>
      match loadPosts rest with
      | none => none
      | some ps => some (p :: ps)

/-- Insertion into a descending-by-date list. -/
def sortInsertDesc (p : Post) : List Post → List Post
  | [] => [p]
  | q :: rest => if q.date < p.date then p :: q :: rest else q :: sortInsertDesc p rest

/-- `sorted(posts, key=date, reverse=True)` (ssg.py line 954); no
claim depends on the relative order of equal timestamps. -/
def sortByDateDesc : List Post → List Post
  | [] => []
  | p :: rest => sortInsertDesc p (sortByDateDesc rest)

/-- The `posts_desc[:20]` entry selection of the aggregate posts feed
(`generate_posts_atom_feed`, ssg.py line 865; called on the public
posts at line 1210). -/
def feed_entries (posts_desc : List Post) : List Post := posts_desc.take 20

/-- The rendering collaborators (excluded from the core per the spec):
one opaque byte-producing callback per artifact kind. -/
structure Renderers where
  postPage : Post → Bytes
  commentsFeed : Post → Bytes
  draftsIndex : List Post → Bytes
  rootIndex : List Post → Bytes
  archivePage : Str → List Post → Bytes
  postsFeed : List Post → Bytes
  tagPage : Str → List Post → Bytes

/-- Path segment `"comments.atom"`. -/
def commentsAtomSeg : Str := "comments.atom".toList

/-- Path segment `"draft"`. -/
def draftSeg : Str := "draft".toList

/-- Path segment `"archive"`. -/
def archiveSeg : Str := "archive".toList

/-- Path segment `"posts.atom"`. -/
def postsAtomSeg : Str := "posts.atom".toList

/-- The `".html"` suffix of archive file names. -/
def htmlSuffix : Str := ".html".toList

/-- ssg.py lines 1079-1098: chunk the public posts with
`chunk_size=5, min_size=3`, number the chunks ascending with age
(oldest = 1), and replace each index by its archive id. -/
def archiveChunks (secret : Bytes) (pubs : List Post) : List (Str × List Post) :=
  ((chunk_stable pubs 5 3).reverse.enum.map
      (fun ic => (archive_id_from_index secret (ic.1 + 1), ic.2))).reverse

/-- The artifact list of one generate run (paths with rendered bytes),
mirroring the write calls of `cmd_generate` in order: per-post pages
and comment feeds (lines 1014-1025), the drafts index when drafts
exist (lines 1057-1070), the root index page holding the newest chunk
(lines 1100-1159), the `archive/<id>.html` pages for the older chunks
(lines 1161-1205), the aggregate posts feed (lines 1207-1211), and the
tag pages (lines 1213-1230).  Attachment hard-links (lines 1026-1055)
are the one artifact family not modeled. -/
def compute_artifacts (R : Renderers) (secret : Bytes) (posts_desc : List Post) :
    List (Path × Bytes) :=
  let postArts := posts_desc.flatMap (fun p =>
    [(p.pathParts ++ [indexHtmlSeg], R.postPage p),
     (p.pathParts ++ [commentsAtomSeg], R.commentsFeed p)])
  let draftPosts := posts_desc.filter (fun p => p.draft)
  let draftArts :=
    if draftPosts.length = 0 then []
    else [([draftSeg, indexHtmlSeg], R.draftsIndex draftPosts)]
  let pubs := posts_desc.filter (fun p => is_public p)
  let chunks := archiveChunks secret pubs
  let indexListing := match chunks with | [] => [] | c :: _ => c.2
  let olderChunks := match chunks with | [] => [] | _ :: rest => rest
  let indexArt := [([indexHtmlSeg], R.rootIndex indexListing)]
  let archiveArts := olderChunks.map (fun c =>
    ([archiveSeg, c.1 ++ htmlSuffix], R.archivePage c.1 c.2))
  let feedArt := [([postsAtomSeg], R.postsFeed (feed_entries pubs))]
  let tagArts := (tagPageEntries posts_desc).map (fun kv =>
    ([tagSeg, kv.1, indexHtmlSeg], R.tagPage kv.1 kv.2))
  postArts ++ draftArts ++ indexArt ++ archiveArts ++ feedArt ++ tagArts

/-- The generate command (ssg.py lines 927-1245): load all posts —
aborting with no output mutation if any post fails —, sort descending
by timestamp, compute all artifacts, and reconcile them against the
existing output tree.  Returns the final state and whether the run
succeeded. -/
def cmd_generate (R : Renderers) (secret : Bytes) (fs0 : Fs) (srcs : List PostSrc) :
    GenState × Bool :=
  match loadPosts srcs with
  | none => ({ fs := fs0, written := [], log := [] }, false)
  | some posts =>
    (reconcile fs0 (compute_artifacts R secret (sortByDateDesc posts)), true)

/-- Concrete fixture: renderers returning empty bytes. -/
def fixtureRenderers : Renderers :=
  { postPage := fun _ => [], commentsFeed := fun _ => [], draftsIndex := fun _ => [],
    rootIndex := fun _ => [], archivePage := fun _ _ => [], postsFeed := fun _ => [],
    tagPage := fun _ _ => [] }

/-- Concrete fixture: source directory `c` with a distinct URL. -/
def fixtureSrcC : PostSrc :=
  { dirname := "c".toList, hasIndex := true,
    front := some { url := some "/2020/01/03/y/".toList, title := some "T".toList,
                    date := some 6, draft := false, unlisted := false, tags := [] } }

/-- Concrete fixture: a source whose front matter is missing the
required `date` key. -/
def fixtureSrcBad : PostSrc :=
  { dirname := "c".toList, hasIndex := true,
    front := some { url := some "/2020/01/02/x/".toList, title := some "T".toList,
                    date := none, draft := false, unlisted := false, tags := [] } }

/-- Concrete fixture: 21 pairwise-distinct posts. -/
def fixtureManyPosts : List Post :=
  (List.range 21).map (fun n =>
    { dirname := [], url := [], title := [], date := n, draft := false,
      unlisted := false, tags := [], pathParts := [] })

/-- Concrete fixture: a one-segment path. -/
def fixturePath : Path := ["x".toList]

/-- Concrete fixture: a filesystem holding bytes `[1]` at
`fixturePath`. -/
def fixtureState : GenState :=
  { fs := fun p => if p = fixturePath then some [1] else none,
    written := [], log := [] }

/-- Concrete fixture: a public post, used by witness theorems. -/
def fixturePostA : Post :=
  { dirname := "a".toList, url := "/2020/01/02/a/".toList, title := "A".toList,
    date := 2, draft := false, unlisted := false, tags := ["t".toList],
    pathParts := ["2020".toList, "01".toList, "02".toList, "a".toList] }

/-- Concrete fixture: a second public post with the same tag. -/
def fixturePostB : Post :=
  { dirname := "b".toList, url := "/2020/01/01/b/".toList, title := "B".toList,
    date := 1, draft := false, unlisted := false, tags := ["t".toList],
    pathParts := ["2020".toList, "01".toList, "01".toList, "b".toList] }

lemma chunkLoop_zero (C M : Nat) (items : List α) (fuel : Nat) :
    chunkLoop C M items fuel 0 = [] := by
  cases fuel <;> simp [chunkLoop]

lemma rpeel_nil (C M : Nat) (fuel : Nat) :
    rpeel C M fuel ([] : List α) = [] := by
  cases fuel <;> simp [rpeel]

lemma chunkLoop_eq_rpeel (C M : Nat) (hC : 1 ≤ C) (items : List α) :
    ∀ fuel r, r ≤ fuel → r ≤ items.length →
      chunkLoop C M items fuel r
        = ((rpeel C M fuel ((items.take r).reverse)).map List.reverse).reverse := by
  intro fuel
  induction fuel with
  | zero =>
    intro r hr _
    have : r = 0 := Nat.le_zero.mp hr
    subst this
    simp [chunkLoop, rpeel]
  | succ fuel ih =>
    intro r hrf hrl
    by_cases hr0 : r = 0
    · subst hr0
      simp [chunkLoop, rpeel]
    have hlen : ((items.take r).reverse).length = r := by
      simp [List.length_reverse, List.length_take, Nat.min_eq_left hrl]
    have hlen2 : (items.take r).length = r := by
      rw [List.length_take]; omega
    have hne : ¬ ((items.take r).reverse).length = 0 := by
      rw [hlen]; exact hr0
    by_cases hbig : C + M ≤ r
    · -- peel a chunk of size C from the tail
      have hCr : C ≤ r := le_trans (Nat.le_add_right C M) hbig
      have hrr : r - (r - C) = C := by omega
      have htake : ((items.take r).reverse).take C = ((items.drop (r - C)).take C).reverse := by
        rw [List.take_reverse, hlen2, List.drop_take, hrr]
      have hdrop : ((items.take r).reverse).drop C = ((items.take (r - C)).reverse) := by
        rw [List.drop_reverse, hlen2, List.take_take, Nat.min_eq_left (by omega)]
      have hstep : chunkLoop C M items (fuel + 1) r
          = chunkLoop C M items fuel (r - C) ++ [(items.drop (r - C)).take C] := by
        simp only [chunkLoop, if_neg hr0, if_pos hbig]
      have hstep' : rpeel C M (fuel + 1) ((items.take r).reverse)
          = ((items.take r).reverse).take C
            :: rpeel C M fuel (((items.take r).reverse).drop C) := by
        simp only [rpeel, hlen, if_neg hr0, if_pos hbig]
      rw [hstep, hstep', List.map_cons, List.reverse_cons,
        ih (r - C) (by omega) (by omega), htake, hdrop, List.reverse_reverse]
    · -- the remainder becomes the final (first) chunk
      have hstep : chunkLoop C M items (fuel + 1) r = [items.take r] := by
        simp only [chunkLoop, if_neg hr0, if_neg hbig]
        rw [Nat.sub_self, chunkLoop_zero, List.drop_zero]
        simp
      have hsmall : ¬ C + M ≤ ((items.take r).reverse).length := by
        rw [hlen]; exact hbig
      have hstep' : rpeel C M (fuel + 1) ((items.take r).reverse)
          = [(items.take r).reverse] := by
        simp only [rpeel, if_neg hne, if_neg hsmall]
      rw [hstep, hstep']
      simp

lemma chunk_stable_eq_rpeel (C M : Nat) (hC : 1 ≤ C) (items : List α) :
    chunk_stable items C M
      = ((rpeel C M items.length items.reverse).map List.reverse).reverse := by
  have := chunkLoop_eq_rpeel C M hC items items.length items.length le_rfl le_rfl
  rwa [List.take_length] at this

lemma rpeel_flatten (C M : Nat) (hC : 1 ≤ C) :
    ∀ fuel (l : List α), l.length ≤ fuel → (rpeel C M fuel l).flatten = l := by
  intro fuel
  induction fuel with
  | zero =>
    intro l hl
    have : l = [] := List.length_eq_zero.mp (Nat.le_zero.mp hl)
    simp [this, rpeel]
  | succ fuel ih =>
    intro l hl
    by_cases hnil : l.length = 0
    · simp [List.length_eq_zero.mp hnil, rpeel]
    by_cases hbig : C + M ≤ l.length
    · have hdl : (l.drop C).length ≤ fuel := by
        rw [List.length_drop]; omega
      simp only [rpeel, if_neg hnil, if_pos hbig, List.flatten_cons, ih (l.drop C) hdl]
      exact List.take_append_drop C l
    · simp [rpeel, hnil, hbig]

lemma rpeel_struct (C M : Nat) (hC : 1 ≤ C) (hM : 1 ≤ M) :
    ∀ fuel (l : List α), l ≠ [] → l.length ≤ fuel →
      ∃ front lastc, rpeel C M fuel l = front ++ [lastc]
        ∧ (∀ c ∈ front, c.length = C)
        ∧ lastc.length < C + M
        ∧ (C + M ≤ l.length → M ≤ lastc.length)
        ∧ (l.length < C + M → lastc = l) := by
  intro fuel
  induction fuel with
  | zero =>
    intro l hne hl
    exact absurd (List.length_eq_zero.mp (Nat.le_zero.mp hl)) hne
  | succ fuel ih =>
    intro l hne hl
    have hne0 : ¬ l.length = 0 := fun h => hne (List.length_eq_zero.mp h)
    by_cases hbig : C + M ≤ l.length
    · have hCl : C ≤ l.length := le_trans (Nat.le_add_right C M) hbig
      have hdlen : (l.drop C).length = l.length - C := List.length_drop C l
      have hdne : l.drop C ≠ [] := by
        intro h
        have := congrArg List.length h
        rw [hdlen] at this
        simp at this
        omega
      have hdl : (l.drop C).length ≤ fuel := by
        rw [hdlen]; omega
      obtain ⟨front, lastc, heq, hfront, hlt, hge, hsm⟩ := ih (l.drop C) hdne hdl
      refine ⟨l.take C :: front, lastc, ?_, ?_, hlt, fun _ => ?_, fun h => absurd hbig (by omega)⟩
      · simp only [rpeel, if_neg hne0, if_pos hbig, heq, List.cons_append]
      · intro c hc
        rcases List.mem_cons.mp hc with h | h
        · rw [h, List.length_take]; omega
        · exact hfront c h
      · by_cases hbig' : C + M ≤ (l.drop C).length
        · exact hge hbig'
        · have : lastc = l.drop C := hsm (by omega)
          rw [this, hdlen]
          omega
    · refine ⟨[], l, ?_, by simp, by omega, fun h => absurd h hbig, fun _ => rfl⟩
      simp only [rpeel, if_neg hne0, if_neg hbig, List.nil_append]

lemma rpeel_dropLast_stable (C M : Nat) (hC : 1 ≤ C) :
    ∀ fuel fuel' (l m : List α), l.length ≤ fuel → (l ++ m).length ≤ fuel' →
      (rpeel C M fuel l).dropLast <+: rpeel C M fuel' (l ++ m) := by
  intro fuel
  induction fuel with
  | zero =>
    intro fuel' l m hl _
    have : l = [] := List.length_eq_zero.mp (Nat.le_zero.mp hl)
    simp [this, rpeel]
  | succ fuel ih =>
    intro fuel' l m hl hlm
    by_cases hnil : l.length = 0
    · simp [List.length_eq_zero.mp hnil, rpeel]
    by_cases hbig : C + M ≤ l.length
    · have hCl : C ≤ l.length := le_trans (Nat.le_add_right C M) hbig
      cases fuel' with
      | zero =>
        exfalso
        rw [List.length_append] at hlm
        omega
      | succ fuel'' =>
        have hlmne : ¬ (l ++ m).length = 0 := by
          rw [List.length_append]; omega
        have hlmbig : C + M ≤ (l ++ m).length := by
          rw [List.length_append]; omega
        have htk : (l ++ m).take C = l.take C := List.take_append_of_le_length hCl
        have hdp : (l ++ m).drop C = l.drop C ++ m := List.drop_append_of_le_length hCl
        have hstepR : rpeel C M (fuel'' + 1) (l ++ m)
            = l.take C :: rpeel C M fuel'' (l.drop C ++ m) := by
          simp only [rpeel, if_neg hlmne, if_pos hlmbig, htk, hdp]
        have hstepL : rpeel C M (fuel + 1) l
            = l.take C :: rpeel C M fuel (l.drop C) := by
          simp only [rpeel, if_neg hnil, if_pos hbig]
        rw [hstepL, hstepR]
        rcases hR : rpeel C M fuel (l.drop C) with _ | ⟨b, R'⟩
        · simp
        · have htail : (rpeel C M fuel (l.drop C)).dropLast
              <+: rpeel C M fuel'' (l.drop C ++ m) := by
            apply ih
            · rw [List.length_drop]; omega
            · rw [List.length_append, List.length_drop]
              rw [List.length_append] at hlm
              omega
          rw [hR] at htail
          obtain ⟨t, ht⟩ := htail
          refine ⟨t, ?_⟩
          rw [List.dropLast_cons₂, List.cons_append, ht]
    · -- l itself is the last chunk: dropLast is empty
      have : rpeel C M (fuel + 1) l = [l] := by
        simp only [rpeel, if_neg hnil, if_neg hbig]
      rw [this]
      simp

lemma tail_reverse (L : List α) : L.reverse.tail = L.dropLast.reverse := by
  rcases hL : L.reverse with _ | ⟨a, t⟩
  · have : L = [] := by
      have := congrArg List.reverse hL
      rwa [List.reverse_reverse] at this
    simp [this]
  · have hL' : L = t.reverse ++ [a] := by
      have := congrArg List.reverse hL
      rw [List.reverse_reverse] at this
      simpa [List.reverse_cons] using this
    rw [hL', List.dropLast_concat, List.reverse_reverse, List.tail_cons]

lemma pref_map {A B : List α} (f : α → β) (h : A <+: B) : A.map f <+: B.map f := by
  obtain ⟨t, rfl⟩ := h
  exact ⟨t.map f, (List.map_append f A t).symm⟩

lemma pref_rev_suffix {A B : List α} (h : A <+: B) : A.reverse <:+ B.reverse := by
  obtain ⟨t, rfl⟩ := h
  exact ⟨t.reverse, (List.reverse_append A t).symm⟩

/-- Claim C1 counterexample: with chunk size `C = 1`, minimum first-chunk
size `M = 0` (allowed by the claim's `0 ≤ M < C`) and the one-element
input `[0]`, the input length satisfies `N ≥ C + M`, yet the first chunk
has 1 item, exceeding the claimed upper bound `C + M - 1 = 0`.  So the
claimed first-chunk size range is false as stated for `M = 0`. -/
theorem chunk_stable_first_bound_fails_at_min_size_zero :
    1 + 0 ≤ ([0] : List Nat).length ∧
      ¬ (chunk_stable ([0] : List Nat) 1 0).headI.length ≤ 1 + 0 - 1 := by
  decide

/-- Claim C1 (amended: the first-chunk size window `[M, C+M-1]` requires
`M ≥ 1`; for `M = 0` the code can emit a first chunk of exactly `C`
items, e.g. `chunk_stable [0] 1 0 = [[0]]`).  For every chunk size
`C ≥ 1` and minimum first-chunk size `M` with `1 ≤ M < C`:
concatenating the chunks reproduces the input exactly; every chunk
except the first has exactly `C` items; if `N ≥ C + M` the first chunk
has between `M` and `C + M - 1` items; if `0 < N < C + M` the whole
list is a single chunk; and the empty list yields no chunks. -/
theorem chunk_stable_spec (items : List α) (C M : Nat)
    (hC : 1 ≤ C) (hM : 1 ≤ M) (hMC : M < C) :
    (chunk_stable items C M).flatten = items
    ∧ (∀ c ∈ (chunk_stable items C M).tail, c.length = C)
    ∧ (C + M ≤ items.length →
        M ≤ (chunk_stable items C M).headI.length
          ∧ (chunk_stable items C M).headI.length ≤ C + M - 1)
    ∧ (0 < items.length → items.length < C + M → chunk_stable items C M = [items])
    ∧ (items = [] → chunk_stable items C M = []) := by
  have hEQ := chunk_stable_eq_rpeel C M hC items
  by_cases hnil : items = []
  · subst hnil
    refine ⟨by simp [chunk_stable, chunkLoop], by simp [chunk_stable, chunkLoop], ?_,
      by simp, by simp [chunk_stable, chunkLoop]⟩
    intro hbig
    simp only [List.length_nil] at hbig
    omega
  have hlne : items.reverse ≠ [] := by
    intro h
    have := congrArg List.reverse h
    rw [List.reverse_reverse] at this
    exact hnil this
  have hlen : (items.reverse).length ≤ items.length := by
    rw [List.length_reverse]
  obtain ⟨front, lastc, heq, hfront, hlt, hge, hsm⟩ :=
    rpeel_struct C M hC hM items.length items.reverse hlne hlen
  have hshape : chunk_stable items C M
      = lastc.reverse :: ((front.map List.reverse).reverse) := by
    rw [hEQ, heq]
    simp [List.map_append, List.reverse_append]
  refine ⟨?_, ?_, ?_, ?_, fun h => absurd h hnil⟩
  · -- flatten reproduces the input
    rw [hEQ]
    have h1 : ((rpeel C M items.length items.reverse).map List.reverse).reverse.flatten
        = (rpeel C M items.length items.reverse).flatten.reverse :=
      (List.reverse_flatten _).symm
    rw [h1, rpeel_flatten C M hC items.length items.reverse hlen, List.reverse_reverse]
  · -- every chunk except the first has length C
    intro c hc
    rw [hshape] at hc
    simp only [List.tail_cons, List.mem_reverse, List.mem_map] at hc
    obtain ⟨c', hc', rfl⟩ := hc
    rw [List.length_reverse]
    exact hfront c' hc'
  · -- first chunk size window when the input is long enough
    intro hbig
    have hbig' : C + M ≤ (items.reverse).length := by rwa [List.length_reverse]
    have h1 : M ≤ lastc.length := hge hbig'
    have h2 : lastc.length < C + M := hlt
    rw [hshape]
    constructor
    · simpa [List.headI, List.length_reverse] using h1
    · simp only [List.headI, List.length_reverse]
      omega
  · -- short nonempty input: everything in one chunk
    intro hpos hsmall
    have hsmall' : (items.reverse).length < C + M := by rwa [List.length_reverse]
    have hlast : lastc = items.reverse := hsm hsmall'
    have hfr : front = [] := by
      rcases front with _ | ⟨f, fr⟩
      · rfl
      exfalso
      have hfl : f.length = C := hfront f (by simp)
      have hflat := rpeel_flatten C M hC items.length items.reverse hlen
      rw [heq] at hflat
      have := congrArg List.length hflat
      rw [List.length_flatten, List.length_reverse] at this
      simp only [List.map_append, List.map_cons, List.sum_append, List.sum_cons] at this
      have hlastlen : lastc.length = items.length := by
        rw [hlast, List.length_reverse]
      omega
    rw [hshape, hfr, hlast]
    simp

/-- Claim C1 amended-theorem witness at the test fixture sizes
(`C = 5`, `M = 3`) on an 8-item input (`[[0,1,2],[3,4,5,6,7]]`). -/
theorem chunk_stable_spec_witness :
    (chunk_stable [0, 1, 2, 3, 4, 5, 6, 7] 5 3).flatten = [0, 1, 2, 3, 4, 5, 6, 7]
    ∧ 3 ≤ (chunk_stable [0, 1, 2, 3, 4, 5, 6, 7] 5 3).headI.length :=
  ⟨(chunk_stable_spec [0, 1, 2, 3, 4, 5, 6, 7] 5 3 (by decide) (by decide) (by decide)).1,
   ((chunk_stable_spec [0, 1, 2, 3, 4, 5, 6, 7] 5 3 (by decide) (by decide)
      (by decide)).2.2.1 (by decide)).1⟩

/-- Claim C2: prepending newer items (`ns ++ xs` in the newest-first
list) never changes any chunk except the newest: all chunks of
`chunk_stable xs` other than the first reappear unchanged, in order, as
a suffix of `chunk_stable (ns ++ xs)`.  (Chunks are peeled from the tail
in slices of exactly `C`, and the tail of `ns ++ xs` is `xs`, so the old
non-first chunk boundaries are preserved.) -/
theorem chunk_stable_prepend_stable (xs ns : List α) (C M : Nat)
    (hC : 1 ≤ C) (hMC : M < C) (hns : ns ≠ []) :
    (chunk_stable xs C M).tail <:+ chunk_stable (ns ++ xs) C M := by
  have hEQx := chunk_stable_eq_rpeel C M hC xs
  have hEQy := chunk_stable_eq_rpeel C M hC (ns ++ xs)
  have hyrev : (ns ++ xs).reverse = xs.reverse ++ ns.reverse := List.reverse_append ns xs
  have hstab : (rpeel C M xs.length xs.reverse).dropLast
      <+: rpeel C M (ns ++ xs).length (xs.reverse ++ ns.reverse) := by
    apply rpeel_dropLast_stable C M hC
    · rw [List.length_reverse]
    · rw [List.length_append, List.length_reverse, List.length_reverse,
        List.length_append]
      omega
  have hmap := pref_map List.reverse hstab
  have hsuf := pref_rev_suffix hmap
  rw [hEQx, hEQy, hyrev, tail_reverse, ← List.map_dropLast]
  exact hsuf

/-- Claim C2 witness: `chunk_stable [0..7] 5 3 = [[0,1,2],[3,4,5,6,7]]`;
prepending `[9]` re-splits only the newest chunk, and `[[3,4,5,6,7]]`
stays a suffix of the new chunk list. -/
theorem chunk_stable_prepend_stable_witness :
    (chunk_stable [0, 1, 2, 3, 4, 5, 6, 7] 5 3).tail
      <:+ chunk_stable ([9] ++ [0, 1, 2, 3, 4, 5, 6, 7]) 5 3 :=
  chunk_stable_prepend_stable [0, 1, 2, 3, 4, 5, 6, 7] [9] 5 3
    (by decide) (by decide) (by decide)

lemma mem_slugSafe (t : List Char) :
    ∀ c ∈ slugSafe t, isLowerAlnum c = true ∨ c = '-' := by
  intro c hc
  simp only [slugSafe, List.map_map, List.mem_map, Function.comp] at hc
  obtain ⟨d, _, rfl⟩ := hc
  by_cases h : isLowerAlnum (Char.toLower d) = true
  · left; rw [if_pos h]; exact h
  · right; rw [if_neg h]

lemma collapseHyphens_head :
    ∀ (xs : List Char) (x : Char), ∃ ys, collapseHyphens (x :: xs) = x :: ys := by
  intro xs
  induction xs with
  | nil => intro x; exact ⟨[], rfl⟩
  | cons b rest ih =>
    intro x
    by_cases h : x = '-' ∧ b = '-'
    · obtain ⟨ys, hys⟩ := ih b
      refine ⟨ys, ?_⟩
      rw [show collapseHyphens (x :: b :: rest) = collapseHyphens (b :: rest) by
        simp [collapseHyphens, h], hys, h.1, h.2]
    · exact ⟨collapseHyphens (b :: rest), by simp [collapseHyphens, h]⟩

lemma mem_collapseHyphens :
    ∀ (l : List Char), ∀ c ∈ collapseHyphens l, c ∈ l := by
  intro l
  induction l with
  | nil => intro c hc; simpa [collapseHyphens] using hc
  | cons a xs ih =>
    intro c hc
    rcases xs with _ | ⟨b, rest⟩
    · simpa [collapseHyphens] using hc
    · by_cases h : a = '-' ∧ b = '-'
      · rw [show collapseHyphens (a :: b :: rest) = collapseHyphens (b :: rest) by
          simp [collapseHyphens, h]] at hc
        exact List.mem_cons_of_mem a (ih c hc)
      · rw [show collapseHyphens (a :: b :: rest) = a :: collapseHyphens (b :: rest) by
          simp [collapseHyphens, h]] at hc
        rcases List.mem_cons.mp hc with h' | h'
        · exact h' ▸ List.mem_cons_self a _
        · exact List.mem_cons_of_mem a (ih c h')

lemma chain'_collapseHyphens :
    ∀ (l : List Char), (collapseHyphens l).Chain' (fun a b => ¬ (a = '-' ∧ b = '-')) := by
  intro l
  induction l with
  | nil => simp [collapseHyphens]
  | cons a xs ih =>
    rcases xs with _ | ⟨b, rest⟩
    · simp [collapseHyphens]
    · by_cases h : a = '-' ∧ b = '-'
      · rw [show collapseHyphens (a :: b :: rest) = collapseHyphens (b :: rest) by
          simp [collapseHyphens, h]]
        exact ih
      · rw [show collapseHyphens (a :: b :: rest) = a :: collapseHyphens (b :: rest) by
          simp [collapseHyphens, h]]
        obtain ⟨ys, hys⟩ := collapseHyphens_head rest b
        rw [hys]
        rw [hys] at ih
        exact List.chain'_cons.mpr ⟨h, ih⟩

lemma head?_dropWhile_hyphen (l : List Char) :
    (l.dropWhile (fun c => c = '-')).head? ≠ some '-' := by
  induction l with
  | nil => simp
  | cons c rest ih =>
    rw [List.dropWhile_cons]
    by_cases h : c = '-'
    · simpa [h] using ih
    · simp [h]

lemma trimHyphensLeft_append (l : List Char) :
    ∃ t, t ++ trimHyphensLeft l = l :=
  ⟨l.takeWhile (fun c => c = '-'), List.takeWhile_append_dropWhile _ l⟩

lemma trimHyphensRight_append (l : List Char) :
    ∃ t, trimHyphensRight l ++ t = l := by
  refine ⟨(l.reverse.takeWhile (fun c => c = '-')).reverse, ?_⟩
  have h := List.takeWhile_append_dropWhile (fun c => c = '-') l.reverse
  have h2 := congrArg List.reverse h
  rw [List.reverse_append, List.reverse_reverse] at h2
  exact h2

lemma head?_of_append_left {A t B : List α} (h : A ++ t = B) (hne : A ≠ []) :
    B.head? = A.head? := by
  rcases A with _ | ⟨a, as⟩
  · exact absurd rfl hne
  · rw [← h]; rfl

/-- Claim C8: `tag_to_slug` always produces either the single-hyphen
placeholder `"-"` or a string matching `[a-z0-9]+(-[a-z0-9]+)*` (only
lowercase letters, digits and single interior hyphens, no hyphen at
either end); `"C++ Tips!"` maps to `"c-tips"` and an all-symbol tag
maps to `"-"`. -/
theorem tag_to_slug_spec :
    (∀ t : List Char, tag_to_slug t = ['-'] ∨ ValidSlug (tag_to_slug t))
    ∧ tag_to_slug ("C++ Tips!".toList) = "c-tips".toList
    ∧ tag_to_slug ("@#$%".toList) = ['-'] := by
  refine ⟨?_, by decide, by decide⟩
  intro t
  by_cases h0 : (trimHyphensRight (trimHyphensLeft (collapseHyphens (slugSafe t)))).length = 0
  · left
    simp only [tag_to_slug, if_pos h0]
  · right
    have htrimmed : tag_to_slug t
        = trimHyphensRight (trimHyphensLeft (collapseHyphens (slugSafe t))) := by
      simp only [tag_to_slug, if_neg h0]
    rw [htrimmed]
    have hne : trimHyphensRight (trimHyphensLeft (collapseHyphens (slugSafe t))) ≠ [] := by
      intro h
      rw [h] at h0
      exact h0 rfl
    refine ⟨hne, ?_, ?_, ?_, ?_⟩
    · -- alphabet
      intro c hc
      have h1 : c ∈ trimHyphensLeft (collapseHyphens (slugSafe t)) := by
        have hsub : (trimHyphensRight (trimHyphensLeft (collapseHyphens (slugSafe t)))).Sublist
            (trimHyphensLeft (collapseHyphens (slugSafe t))) := by
          have hs := List.Sublist.reverse
            (List.dropWhile_sublist
              (l := (trimHyphensLeft (collapseHyphens (slugSafe t))).reverse)
              (fun c => c = '-'))
          rw [List.reverse_reverse] at hs
          exact hs
        exact List.Sublist.mem hc hsub
      have h2 : c ∈ collapseHyphens (slugSafe t) :=
        List.Sublist.mem h1 (List.dropWhile_sublist _)
      exact mem_slugSafe t c (mem_collapseHyphens _ c h2)
    · -- no leading hyphen
      obtain ⟨u, hu⟩ :=
        trimHyphensRight_append (trimHyphensLeft (collapseHyphens (slugSafe t)))
      have hh := head?_of_append_left hu hne
      rw [← hh]
      exact head?_dropWhile_hyphen _
    · -- no trailing hyphen
      unfold trimHyphensRight
      rw [List.getLast?_reverse]
      exact head?_dropWhile_hyphen _
    · -- no adjacent hyphens
      have hch := chain'_collapseHyphens (slugSafe t)
      have hchL : (trimHyphensLeft (collapseHyphens (slugSafe t))).Chain'
          (fun a b => ¬ (a = '-' ∧ b = '-')) := by
        obtain ⟨u, hu⟩ := trimHyphensLeft_append (collapseHyphens (slugSafe t))
        rw [← hu] at hch
        exact List.Chain'.right_of_append hch
      obtain ⟨u, hu⟩ :=
        trimHyphensRight_append (trimHyphensLeft (collapseHyphens (slugSafe t)))
      rw [← hu] at hchL
      exact List.Chain'.left_of_append hchL

/-- Claim C8 witness: the concrete `"C++ Tips!" → "c-tips"` instance,
obtained by applying `tag_to_slug_spec`. -/
theorem tag_to_slug_spec_witness :
    tag_to_slug ("C++ Tips!".toList) = "c-tips".toList :=
  tag_to_slug_spec.2.1

/-! ### Lemmas for the tag index (claim C7) -/

lemma insertStr_perm (x : Str) (l : List Str) : (insertStr x l).Perm (x :: l) := by
  induction l with
  | nil => simp [insertStr]
  | cons y rest ih =>
    by_cases h : strLe x y = true
    · simp [insertStr, h]
    · simp only [insertStr, if_neg h]
      exact (ih.cons y).trans (List.Perm.swap x y rest)

lemma sortStrs_perm (l : List Str) : (sortStrs l).Perm l := by
  induction l with
  | nil => simp [sortStrs]
  | cons x rest ih =>
    exact (insertStr_perm x (sortStrs rest)).trans (ih.cons x)

lemma mem_tag_slugs (p : Post) (slug : Str) :
    slug ∈ tag_slugs_for_post p ↔ carriesSlug slug p = true := by
  unfold tag_slugs_for_post carriesSlug
  rw [(sortStrs_perm _).mem_iff, List.mem_dedup, List.any_eq_true]
  constructor
  · intro h
    obtain ⟨t, ht, rfl⟩ := List.mem_map.mp h
    exact ⟨t, ht, by simp⟩
  · rintro ⟨t, ht, hdec⟩
    have : tag_to_slug t = slug := of_decide_eq_true hdec
    exact List.mem_map.mpr ⟨t, ht, this⟩

lemma decide_mem_tag_slugs (p : Post) (slug : Str) :
    decide (slug ∈ tag_slugs_for_post p) = carriesSlug slug p := by
  by_cases h : slug ∈ tag_slugs_for_post p
  · rw [decide_eq_true h, ((mem_tag_slugs p slug).mp h).symm]
  · rw [decide_eq_false h]
    cases hc : carriesSlug slug p
    · rfl
    · exact absurd ((mem_tag_slugs p slug).mpr hc) h

lemma nodup_tag_slugs (p : Post) : (tag_slugs_for_post p).Nodup :=
  (sortStrs_perm _).nodup_iff.mpr (List.nodup_dedup _)

lemma tagMapGet_tagMapAppend (m : List (Str × List Post)) (s : Str) (p : Post)
    (slug : Str) :
    tagMapGet (tagMapAppend m s p) slug
      = if s = slug then some ((tagMapGet m slug).getD [] ++ [p])
        else tagMapGet m slug := by
  induction m with
  | nil =>
    by_cases h : s = slug <;> simp [tagMapAppend, tagMapGet, h]
  | cons kv rest ih =>
    obtain ⟨k, v⟩ := kv
    by_cases hks : k = s
    · subst hks
      by_cases hk : k = slug
      · subst hk
        simp [tagMapAppend, tagMapGet]
      · simp [tagMapAppend, tagMapGet, hk]
    · by_cases hk : k = slug
      · have hs : ¬ s = slug := fun h => hks (hk.trans h.symm)
        rw [show tagMapAppend ((k, v) :: rest) s p = (k, v) :: tagMapAppend rest s p by
          simp [tagMapAppend, hks]]
        rw [show tagMapGet ((k, v) :: tagMapAppend rest s p) slug = some v by
          simp [tagMapGet, hk]]
        rw [if_neg hs]
        simp [tagMapGet, hk]
      · simp [tagMapAppend, tagMapGet, hks, hk, ih]

lemma tagMapGet_foldl_slugs_not_mem (p : Post) (slug : Str) :
    ∀ (slugs : List Str) (m : List (Str × List Post)), slug ∉ slugs →
      tagMapGet (slugs.foldl (fun m' s => tagMapAppend m' s p) m) slug
        = tagMapGet m slug := by
  intro slugs
  induction slugs with
  | nil => intro m _; rfl
  | cons s rest ih =>
    intro m hmem
    have hs : ¬ s = slug := fun h => hmem (h ▸ List.mem_cons_self s rest)
    have hrest : slug ∉ rest := fun h => hmem (List.mem_cons_of_mem s h)
    rw [List.foldl_cons, ih (tagMapAppend m s p) hrest,
      tagMapGet_tagMapAppend, if_neg hs]

lemma tagMapGet_foldl_slugs_mem (p : Post) (slug : Str) :
    ∀ (slugs : List Str) (m : List (Str × List Post)),
      slugs.Nodup → slug ∈ slugs →
      tagMapGet (slugs.foldl (fun m' s => tagMapAppend m' s p) m) slug
        = some ((tagMapGet m slug).getD [] ++ [p]) := by
  intro slugs
  induction slugs with
  | nil => intro m _ h; exact absurd h (List.not_mem_nil slug)
  | cons s rest ih =>
    intro m hnd hmem
    have hnd' := List.nodup_cons.mp hnd
    rcases List.mem_cons.mp hmem with h | h
    · subst h
      rw [List.foldl_cons,
        tagMapGet_foldl_slugs_not_mem p slug rest (tagMapAppend m slug p) hnd'.1,
        tagMapGet_tagMapAppend, if_pos rfl]
    · by_cases hs : s = slug
      · subst hs
        exact absurd h hnd'.1
      · rw [List.foldl_cons, ih (tagMapAppend m s p) hnd'.2 h,
          tagMapGet_tagMapAppend, if_neg hs]

lemma combineGet_nil (x : Option (List Post)) : combineGet x [] = x := by
  cases x <;> simp [combineGet]

lemma tagGroup_nil (slug : Str) : tagGroup slug [] = [] := rfl

lemma tagMapGet_foldl_posts (slug : Str) :
    ∀ (posts : List Post) (m : List (Str × List Post)),
      tagMapGet
        (posts.foldl
          (fun m p =>
            if is_public p then
              (tag_slugs_for_post p).foldl (fun m' s => tagMapAppend m' s p) m
            else m)
          m) slug
      = combineGet (tagMapGet m slug) (tagGroup slug posts) := by
  intro posts
  induction posts with
  | nil => intro m; rw [List.foldl_nil, tagGroup_nil, combineGet_nil]
  | cons p rest ih =>
    intro m
    rw [List.foldl_cons]
    by_cases hpub : is_public p = true
    · by_cases hmem : slug ∈ tag_slugs_for_post p
      · have hstep : tagMapGet
            ((tag_slugs_for_post p).foldl (fun m' s => tagMapAppend m' s p) m) slug
            = some ((tagMapGet m slug).getD [] ++ [p]) :=
          tagMapGet_foldl_slugs_mem p slug _ m (nodup_tag_slugs p) hmem
        have hgrp : tagGroup slug (p :: rest) = p :: tagGroup slug rest := by
          simp [tagGroup, List.filter_cons, hpub, hmem]
        rw [if_pos hpub, ih, hstep, hgrp]
        cases hg : tagMapGet m slug with
        | none => simp [combineGet]
        | some v => simp [combineGet]
      · have hstep : tagMapGet
            ((tag_slugs_for_post p).foldl (fun m' s => tagMapAppend m' s p) m) slug
            = tagMapGet m slug :=
          tagMapGet_foldl_slugs_not_mem p slug _ m hmem
        have hgrp : tagGroup slug (p :: rest) = tagGroup slug rest := by
          simp [tagGroup, List.filter_cons, hpub, hmem]
        rw [if_pos hpub, ih, hstep, hgrp]
    · have hpub' : is_public p = false := Bool.eq_false_iff.mpr hpub
      have hgrp : tagGroup slug (p :: rest) = tagGroup slug rest := by
        simp [tagGroup, List.filter_cons, hpub']
      rw [if_neg hpub, ih, hgrp]

lemma tagMapGet_build_tag_map (posts : List Post) (slug : Str) :
    tagMapGet (build_tag_map posts) slug = combineGet none (tagGroup slug posts) :=
  tagMapGet_foldl_posts slug posts []

lemma keys_tagMapAppend (m : List (Str × List Post)) (s : Str) (p : Post) :
    (s ∈ m.map Prod.fst ∧ (tagMapAppend m s p).map Prod.fst = m.map Prod.fst)
    ∨ (s ∉ m.map Prod.fst
        ∧ (tagMapAppend m s p).map Prod.fst = m.map Prod.fst ++ [s]) := by
  induction m with
  | nil => right; exact ⟨List.not_mem_nil s, rfl⟩
  | cons kv rest ih =>
    obtain ⟨k, v⟩ := kv
    by_cases hk : k = s
    · subst hk
      left
      exact ⟨List.mem_cons_self k _, by simp [tagMapAppend]⟩
    · rcases ih with ⟨hm, he⟩ | ⟨hm, he⟩
      · left
        refine ⟨List.mem_cons_of_mem _ hm, ?_⟩
        simp [tagMapAppend, hk, he]
      · right
        refine ⟨?_, ?_⟩
        · intro h
          rcases List.mem_cons.mp h with h' | h'
          · exact hk h'.symm
          · exact hm h'
        · simp [tagMapAppend, hk, he]

lemma nodup_keys_tagMapAppend {m : List (Str × List Post)} {s : Str} {p : Post}
    (h : (m.map Prod.fst).Nodup) : ((tagMapAppend m s p).map Prod.fst).Nodup := by
  rcases keys_tagMapAppend m s p with ⟨_, he⟩ | ⟨hm, he⟩
  · rwa [he]
  · rw [he]
    refine List.nodup_append.mpr ⟨h, List.nodup_singleton s, ?_⟩
    intro a ha hb
    rw [List.mem_singleton.mp hb] at ha
    exact hm ha

lemma nodup_keys_foldl_slugs (p : Post) :
    ∀ (slugs : List Str) (m : List (Str × List Post)),
      (m.map Prod.fst).Nodup →
      (((slugs.foldl (fun m' s => tagMapAppend m' s p) m)).map Prod.fst).Nodup := by
  intro slugs
  induction slugs with
  | nil => intro m h; exact h
  | cons s rest ih =>
    intro m h
    exact ih (tagMapAppend m s p) (nodup_keys_tagMapAppend h)

lemma nodup_keys_build_tag_map (posts : List Post) :
    ((build_tag_map posts).map Prod.fst).Nodup := by
  have aux : ∀ (ps : List Post) (m : List (Str × List Post)),
      (m.map Prod.fst).Nodup →
      ((ps.foldl
          (fun m p =>
            if is_public p then
              (tag_slugs_for_post p).foldl (fun m' s => tagMapAppend m' s p) m
            else m) m).map Prod.fst).Nodup := by
    intro ps
    induction ps with
    | nil => intro m h; exact h
    | cons p rest ih =>
      intro m h
      rw [List.foldl_cons]
      by_cases hpub : is_public p = true
      · rw [if_pos hpub]
        exact ih _ (nodup_keys_foldl_slugs p _ m h)
      · rw [if_neg hpub]
        exact ih m h
  exact aux posts [] (by simp)

lemma tagMapGet_eq_some_iff_mem {m : List (Str × List Post)}
    (hnd : (m.map Prod.fst).Nodup) (slug : Str) (v : List Post) :
    tagMapGet m slug = some v ↔ (slug, v) ∈ m := by
  induction m with
  | nil => simp [tagMapGet]
  | cons kv rest ih =>
    obtain ⟨k, w⟩ := kv
    rw [List.map_cons, List.nodup_cons] at hnd
    by_cases hk : k = slug
    · subst hk
      rw [show tagMapGet ((k, w) :: rest) k = some w by simp [tagMapGet]]
      constructor
      · intro h
        have hw : w = v := by simpa using h
        rw [← hw]
        exact List.mem_cons_self _ _
      · intro h
        rcases List.mem_cons.mp h with h' | h'
        · exact congrArg some (Prod.ext_iff.mp h').2.symm
        · exact absurd (List.mem_map.mpr ⟨(k, v), h', rfl⟩) hnd.1
    · rw [show tagMapGet ((k, w) :: rest) slug = tagMapGet rest slug by
        simp [tagMapGet, hk]]
      rw [ih hnd.2]
      constructor
      · exact fun h => List.mem_cons_of_mem _ h
      · intro h
        rcases List.mem_cons.mp h with h' | h'
        · exact absurd (Prod.ext_iff.mp h').1.symm hk
        · exact h'

lemma tagGroup_eq_filter (slug : Str) (posts : List Post) :
    tagGroup slug posts
      = posts.filter (fun p => is_public p && carriesSlug slug p) := by
  unfold tagGroup
  apply List.filter_congr
  intro p _
  rw [decide_mem_tag_slugs]

/-- Claim C7: a `tag/<slug>/index.html` artifact is produced in a run
if and only if more than one public post carries a tag normalizing to
`slug`; and the stored member list of a slug is exactly the filter of
the descending post list down to the public posts carrying the slug —
so tag groups never contain draft or unlisted posts and inherit the
global descending-timestamp order. -/
theorem tag_pages_spec (posts_desc : List Post) (slug : Str) :
    ([tagSeg, slug, indexHtmlSeg] ∈ tagPagePaths posts_desc
        ↔ 1 < (posts_desc.filter (fun p => is_public p && carriesSlug slug p)).length)
    ∧ (∀ v, tagMapGet (build_tag_map posts_desc) slug = some v →
        v = posts_desc.filter (fun p => is_public p && carriesSlug slug p)) := by
  have hget := tagMapGet_build_tag_map posts_desc slug
  have hnd := nodup_keys_build_tag_map posts_desc
  have hgrp := tagGroup_eq_filter slug posts_desc
  constructor
  · rw [← hgrp]
    constructor
    · intro hmem
      simp only [tagPagePaths, tagPageEntries, List.mem_map, List.mem_filter] at hmem
      obtain ⟨kv, ⟨hkv, hlen⟩, hpath⟩ := hmem
      obtain ⟨k, v⟩ := kv
      have hk : k = slug := by
        have h1 := congrArg (fun l => l.get? 1) hpath
        simpa using h1
      subst hk
      have hlen' : 1 < v.length := by simpa using hlen
      have hv : tagMapGet (build_tag_map posts_desc) k = some v :=
        (tagMapGet_eq_some_iff_mem hnd k v).mpr hkv
      rw [hget] at hv
      cases hg : tagGroup k posts_desc with
      | nil => rw [hg] at hv; simp [combineGet] at hv
      | cons q qs =>
        rw [hg] at hv
        have hveq : q :: qs = v := by simpa [combineGet] using hv
        rw [hveq]
        exact hlen'
    · intro hlen
      cases hg : tagGroup slug posts_desc with
      | nil => rw [hg] at hlen; simp at hlen
      | cons q qs =>
        rw [hg] at hlen
        have hv : tagMapGet (build_tag_map posts_desc) slug = some (q :: qs) := by
          rw [hget, hg]
          simp [combineGet]
        have hkv : (slug, q :: qs) ∈ build_tag_map posts_desc :=
          (tagMapGet_eq_some_iff_mem hnd slug (q :: qs)).mp hv
        simp only [tagPagePaths, tagPageEntries, List.mem_map, List.mem_filter]
        exact ⟨(slug, q :: qs), ⟨hkv, by simpa using hlen⟩, rfl⟩
  · intro v hv
    rw [hget] at hv
    rw [← hgrp]
    cases hg : tagGroup slug posts_desc with
    | nil => rw [hg] at hv; simp [combineGet] at hv
    | cons q qs =>
      rw [hg] at hv
      have hveq : q :: qs = v := by simpa [combineGet] using hv
      exact hveq.symm

/-- Claim C7 witness: two public posts tagged `"t"` produce the
`tag/t/index.html` artifact. -/
theorem tag_pages_spec_witness :
    [tagSeg, "t".toList, indexHtmlSeg] ∈ tagPagePaths [fixturePostA, fixturePostB] :=
  (tag_pages_spec [fixturePostA, fixturePostB] "t".toList).1.mpr (by decide)

/-! ### Lemmas for the archive identifier (claim C6) -/

lemma shake_128_length (msg : List Nat) (n : Nat) : (shake_128 msg n).length = n := by
  simp [shake_128, stateBytes]

lemma bytesToHex_length (bs : List Nat) : (bytesToHex bs).length = 2 * bs.length := by
  induction bs with
  | nil => rfl
  | cons b rest ih =>
    simp only [bytesToHex] at ih ⊢
    simp only [List.flatMap_cons, List.length_append, List.length_cons, ih,
      List.length_nil, List.length_cons]
    omega

lemma mem_stateBytes {st : List Nat} {n b : Nat} (h : b ∈ stateBytes st n) : b < 256 := by
  simp only [stateBytes, List.mem_map] at h
  obtain ⟨i, _, rfl⟩ := h
  exact Nat.mod_lt _ (by omega)

lemma hexChar_mem : ∀ n < 16, hexChar n ∈ hexAlphabet := by decide

lemma toLower_hexAlphabet : ∀ c ∈ hexAlphabet, Char.toLower c = c := by decide

/-- Claim C6: the archive identifier is the decimal index, an
underscore, and the 8 lowercase hex characters rendering the first 4
bytes of the SHAKE-128 hash of the concatenation of the decimal index
and the secret; and it is a deterministic pure function of the pair
(equal inputs give equal identifiers — the embedding is pure, exactly
as the Python function is, so this holds across invocations and runs). -/
theorem archive_id_from_index_spec (index : Nat) (secret : Bytes) :
    archive_id_from_index secret index
      = natToDecChars index ++ '_'
          :: (bytesToHex
                (shake_128 ((natToDecChars index).map Char.toNat ++ secret) 4)).map
               Char.toLower
    ∧ (shake_128 ((natToDecChars index).map Char.toNat ++ secret) 4).length = 4
    ∧ ((bytesToHex
          (shake_128 ((natToDecChars index).map Char.toNat ++ secret) 4)).map
         Char.toLower).length = 8
    ∧ (∀ c ∈ (bytesToHex
          (shake_128 ((natToDecChars index).map Char.toNat ++ secret) 4)).map
         Char.toLower, c ∈ hexAlphabet)
    ∧ (∀ i' s', i' = index → s' = secret →
        archive_id_from_index s' i' = archive_id_from_index secret index) := by
  refine ⟨rfl, shake_128_length _ _, ?_, ?_, ?_⟩
  · rw [List.length_map, bytesToHex_length, shake_128_length]
  · intro c hc
    rw [List.mem_map] at hc
    obtain ⟨c', hc', rfl⟩ := hc
    have hhex : c' ∈ hexAlphabet := by
      rw [bytesToHex, List.mem_flatMap] at hc'
      obtain ⟨b, hb, hcb⟩ := hc'
      have hblt : b < 256 := mem_stateBytes (by simpa [shake_128] using hb)
      rcases List.mem_cons.mp hcb with h | h
      · rw [h]
        exact hexChar_mem (b / 16) (by omega)
      · rw [List.mem_singleton.mp h]
        exact hexChar_mem (b % 16) (by omega)
    rw [toLower_hexAlphabet c' hhex]
    exact hhex
  · intro i' s' h1 h2
    rw [h1, h2]

/-- Claim C6 witness at `index = 3`, `secret = "sec"` (bytes
`[115, 101, 99]`): the spec applies, and the identifier concretely
evaluates to `"3_185dda0d"`, matching
`hashlib.shake_128(b"3sec").hexdigest(4)`. -/
theorem archive_id_from_index_spec_witness :
    archive_id_from_index [115, 101, 99] 3
      = natToDecChars 3 ++ '_'
          :: (bytesToHex
                (shake_128 ((natToDecChars 3).map Char.toNat ++ [115, 101, 99]) 4)).map
               Char.toLower
    ∧ archive_id_from_index [115, 101, 99] 3 = "3_185dda0d".toList :=
  ⟨(archive_id_from_index_spec 3 [115, 101, 99]).1, by decide⟩

/-! ### Lemmas for the output reconciler (claims C3 and C4) -/

lemma write_and_record_written (q : Path) (c : Bytes) (st : GenState) :
    (write_and_record q c st).written = q :: st.written := by
  unfold write_and_record record_written_file
  by_cases h : some c ≠ st.fs q
  · rw [if_pos h]
  · rw [if_neg h]

lemma write_and_record_fs (q : Path) (c : Bytes) (st : GenState) (p : Path) :
    (write_and_record q c st).fs p = if p = q then some c else st.fs p := by
  unfold write_and_record record_written_file
  by_cases h : some c ≠ st.fs q
  · rw [if_pos h]
  · rw [if_neg h]
    push_neg at h
    by_cases hpq : p = q
    · subst hpq
      rw [if_pos rfl, ← h]
    · rw [if_neg hpq]

/-- Claim C3: `write_and_record` leaves a byte-identical file untouched
(no write, filesystem unchanged), performs a write exactly when the
file is absent or differs, afterwards holds the computed bytes at the
path, always adds the path to the kept set, and never touches any
other path. -/
theorem write_and_record_spec (st : GenState) (p : Path) (b : Bytes) :
    (st.fs p = some b →
      (write_and_record p b st).fs = st.fs ∧ (write_and_record p b st).log = st.log)
    ∧ (write_and_record p b st).fs p = some b
    ∧ ((write_and_record p b st).log ≠ st.log ↔ st.fs p ≠ some b)
    ∧ p ∈ (write_and_record p b st).written
    ∧ (∀ q, q ≠ p → (write_and_record p b st).fs q = st.fs q) := by
  by_cases h : some b = st.fs p
  · have hskip : write_and_record p b st = record_written_file p st := by
      unfold write_and_record
      rw [if_neg (by simpa using h)]
    rw [hskip]
    refine ⟨fun _ => ⟨rfl, rfl⟩, ?_, ?_, List.mem_cons_self p _, fun q _ => rfl⟩
    · show st.fs p = some b
      exact h.symm
    constructor
    · intro habs
      exact absurd rfl habs
    · intro habs
      exact absurd h.symm habs
  · have hwrite : write_and_record p b st
        = record_written_file p
            { st with fs := fun q => if q = p then some b else st.fs q,
                      log := p :: st.log } := by
      unfold write_and_record
      rw [if_pos h]
    rw [hwrite]
    refine ⟨fun habs => absurd habs.symm h, ?_, ?_, List.mem_cons_self p _, ?_⟩
    · show (if p = p then some b else st.fs p) = some b
      rw [if_pos rfl]
    · unfold record_written_file
      constructor
      · intro _
        exact fun he => h he.symm
      · intro _
        exact List.cons_ne_self p st.log
    · intro q hq
      show (if q = p then some b else st.fs q) = st.fs q
      rw [if_neg hq]

/-- Claim C3 witness: at the fixture state, where `fixturePath` already
holds exactly the bytes `[1]`, the call neither writes nor changes the
filesystem, and the path is still marked kept. -/
theorem write_and_record_spec_witness :
    (write_and_record fixturePath [1] fixtureState).fs = fixtureState.fs
    ∧ (write_and_record fixturePath [1] fixtureState).log = fixtureState.log
    ∧ fixturePath ∈ (write_and_record fixturePath [1] fixtureState).written :=
  ⟨((write_and_record_spec fixtureState fixturePath [1]).1 (by decide)).1,
   ((write_and_record_spec fixtureState fixturePath [1]).1 (by decide)).2,
   (write_and_record_spec fixtureState fixturePath [1]).2.2.2.1⟩

lemma runWrites_fs (p : Path) :
    ∀ (arts : List (Path × Bytes)) (st : GenState),
      (runWrites st arts).fs p
        = match lastWrite arts p with
          | some b => some b
          | none => st.fs p := by
  intro arts
  induction arts with
  | nil => intro st; rfl
  | cons a rest ih =>
    intro st
    obtain ⟨q, c⟩ := a
    rw [show runWrites st ((q, c) :: rest) = runWrites (write_and_record q c st) rest
      from rfl]
    rw [ih (write_and_record q c st)]
    cases hl : lastWrite rest p with
    | some b =>
      rw [show lastWrite ((q, c) :: rest) p = some b by simp [lastWrite, hl]]
    | none =>
      rw [write_and_record_fs]
      by_cases hpq : p = q
      · subst hpq
        rw [show lastWrite ((p, c) :: rest) p = some c by simp [lastWrite, hl]]
        rw [if_pos rfl]
      · have hqp : ¬ q = p := fun h => hpq h.symm
        rw [show lastWrite ((q, c) :: rest) p = none by simp [lastWrite, hl, hqp]]
        rw [if_neg hpq]

lemma runWrites_written (p : Path) :
    ∀ (arts : List (Path × Bytes)) (st : GenState),
      p ∈ (runWrites st arts).written ↔ p ∈ st.written ∨ p ∈ arts.map Prod.fst := by
  intro arts
  induction arts with
  | nil => intro st; simp [runWrites]
  | cons a rest ih =>
    intro st
    obtain ⟨q, c⟩ := a
    rw [show runWrites st ((q, c) :: rest) = runWrites (write_and_record q c st) rest
      from rfl]
    rw [ih (write_and_record q c st), write_and_record_written]
    simp only [List.mem_cons, List.map_cons]
    constructor
    · rintro ((h | h) | h)
      · right; left; exact h
      · left; exact h
      · right; right; exact h
    · rintro (h | (h | h))
      · left; right; exact h
      · left; left; exact h
      · right; exact h

lemma lastWrite_isSome_iff (arts : List (Path × Bytes)) (p : Path) :
    (lastWrite arts p).isSome = true ↔ p ∈ arts.map Prod.fst := by
  induction arts with
  | nil => simp [lastWrite]
  | cons a rest ih =>
    cases hl : lastWrite rest p with
    | some b =>
      rw [show lastWrite (a :: rest) p = some b by simp [lastWrite, hl]]
      simp only [Option.isSome_some, true_iff, List.map_cons, List.mem_cons]
      right
      exact ih.mp (by rw [hl]; rfl)
    | none =>
      rw [show lastWrite (a :: rest) p = if a.1 = p then some a.2 else none by
        simp [lastWrite, hl]]
      rw [hl] at ih
      simp only [Option.isSome_none, Bool.false_eq_true, false_iff] at ih
      by_cases hq : a.1 = p
      · simp [hq, List.mem_cons]
      · simp only [if_neg hq, Option.isSome_none, Bool.false_eq_true, false_iff,
          List.map_cons, List.mem_cons]
        rintro (h | h)
        · exact hq h.symm
        · exact ih h

lemma lastWrite_eq_some_iff {arts : List (Path × Bytes)}
    (hnd : (arts.map Prod.fst).Nodup) (p : Path) (b : Bytes) :
    lastWrite arts p = some b ↔ (p, b) ∈ arts := by
  induction arts with
  | nil => simp [lastWrite]
  | cons a rest ih =>
    obtain ⟨q, c⟩ := a
    rw [List.map_cons, List.nodup_cons] at hnd
    cases hl : lastWrite rest p with
    | some b' =>
      have hpmem : p ∈ rest.map Prod.fst :=
        (lastWrite_isSome_iff rest p).mp (by rw [hl]; rfl)
      have hqp : ¬ (q : Path) = p := fun h => hnd.1 (h ▸ hpmem)
      rw [show lastWrite ((q, c) :: rest) p = some b' by simp [lastWrite, hl]]
      rw [← hl, ih hnd.2]
      simp only [List.mem_cons]
      constructor
      · intro h; right; exact h
      · rintro (h | h)
        · exact absurd (Prod.ext_iff.mp h).1.symm hqp
        · exact h
    | none =>
      have hpmem : p ∉ rest.map Prod.fst := by
        intro hmem
        have := (lastWrite_isSome_iff rest p).mpr hmem
        rw [hl] at this
        simp at this
      rw [show lastWrite ((q, c) :: rest) p = if q = p then some c else none by
        simp [lastWrite, hl]]
      by_cases hq : q = p
      · subst hq
        rw [if_pos rfl]
        simp only [Option.some.injEq, List.mem_cons]
        constructor
        · intro h
          left
          rw [h]
        · rintro (h | h)
          · exact (Prod.ext_iff.mp h).2.symm
          · exact absurd (List.mem_map.mpr ⟨(q, b), h, rfl⟩) hpmem
      · rw [if_neg hq]
        simp only [List.mem_cons]
        constructor
        · intro h; exact absurd h (by simp)
        · rintro (h | h)
          · exact absurd (Prod.ext_iff.mp h).1.symm hq
          · exact absurd (List.mem_map.mpr ⟨(p, b), h, rfl⟩) hpmem

lemma pruneDirs_fixpoint (files : List Path) :
    ∀ (fuel : Nat) (dirs : List Path), dirs.length ≤ fuel →
      pruneDirsStep files (pruneDirs fuel files dirs) = pruneDirs fuel files dirs := by
  intro fuel
  induction fuel with
  | zero =>
    intro dirs hl
    have : dirs = [] := List.length_eq_zero.mp (Nat.le_zero.mp hl)
    subst this
    rfl
  | succ fuel ih =>
    intro dirs hl
    by_cases hfix : (pruneDirsStep files dirs).length = dirs.length
    · rw [show pruneDirs (fuel + 1) files dirs = dirs by simp [pruneDirs, hfix]]
      exact List.Sublist.eq_of_length (List.filter_sublist dirs) hfix
    · rw [show pruneDirs (fuel + 1) files dirs
          = pruneDirs fuel files (pruneDirsStep files dirs) by simp [pruneDirs, hfix]]
      apply ih
      have hsub : (pruneDirsStep files dirs).Sublist dirs := List.filter_sublist dirs
      have : (pruneDirsStep files dirs).length < dirs.length :=
        lt_of_le_of_ne hsub.length_le hfix
      omega

lemma mem_maxLen {S : List Path} {d : Path} (h : d ∈ S) : d.length ≤ maxLen S := by
  induction S with
  | nil => exact absurd h (List.not_mem_nil d)
  | cons a rest ih =>
    rcases List.mem_cons.mp h with h' | h'
    · subst h'
      exact le_max_left _ _
    · exact le_trans (ih h') (le_max_right _ _)

lemma dirNonEmpty_cases {files S : List Path} {d : Path}
    (h : dirNonEmpty files S d = true) :
    (∃ e ∈ S, d ≠ e ∧ d <+: e) ∨ (∃ f ∈ files, d ≠ f ∧ d <+: f) := by
  unfold dirNonEmpty at h
  rcases (Bool.or_eq_true _ _).mp h with h' | h'
  · left
    obtain ⟨e, he, hcond⟩ := List.any_eq_true.mp h'
    rcases Bool.and_eq_true_iff.mp hcond with ⟨h1, h2⟩
    refine ⟨e, he, ?_, of_decide_eq_true h2⟩
    intro heq
    rw [heq] at h1
    simp at h1
  · right
    obtain ⟨f, hf, hcond⟩ := List.any_eq_true.mp h'
    rcases Bool.and_eq_true_iff.mp hcond with ⟨h1, h2⟩
    refine ⟨f, hf, ?_, of_decide_eq_true h2⟩
    intro heq
    rw [heq] at h1
    simp at h1

lemma fixpoint_has_file {files S : List Path}
    (hfix : pruneDirsStep files S = S) :
    ∀ (k : Nat) (d : Path), d ∈ S → maxLen S - d.length ≤ k →
      ∃ f ∈ files, d ≠ f ∧ d <+: f := by
  intro k
  induction k with
  | zero =>
    intro d hd hk
    rcases dirNonEmpty_cases (List.filter_eq_self.mp hfix d hd) with ⟨e, he, hne, hpre⟩ | h
    · exfalso
      have h1 : d.length < e.length :=
        lt_of_le_of_ne hpre.length_le (fun h => hne (hpre.eq_of_length h))
      have h2 : e.length ≤ maxLen S := mem_maxLen he
      omega
    · exact h
  | succ k ih =>
    intro d hd hk
    rcases dirNonEmpty_cases (List.filter_eq_self.mp hfix d hd) with ⟨e, he, hne, hpre⟩ | h
    · have h1 : d.length < e.length :=
        lt_of_le_of_ne hpre.length_le (fun h => hne (hpre.eq_of_length h))
      obtain ⟨f, hf, hnef, hpref⟩ := ih e he (by have := mem_maxLen he; omega)
      refine ⟨f, hf, ?_, hpre.trans hpref⟩
      intro heq
      have := hpref.length_le
      rw [heq] at h1
      omega
    · exact h

/-- Claim C4: after one reconciliation run over any pre-existing tree,
(1) the files on disk are exactly the computed artifacts — a path holds
bytes `b` iff `(p, b)` is a computed artifact (paths assumed distinct
per run, cf. C9); (2) a file exists at a path iff the path is in the
kept set; (3) after the empty-directory sweep, every surviving
directory has a kept file strictly below it — no empty directory
remains. -/
theorem reconcile_spec (fs0 : Fs) (arts : List (Path × Bytes))
    (hnd : (arts.map Prod.fst).Nodup) :
    (∀ p b, (reconcile fs0 arts).fs p = some b ↔ (p, b) ∈ arts)
    ∧ (∀ p, ((reconcile fs0 arts).fs p).isSome = true
        ↔ p ∈ (reconcile fs0 arts).written)
    ∧ (∀ dirs d, d ∈ pruneEmptyDirs (arts.map Prod.fst) dirs →
        ∃ f ∈ arts.map Prod.fst, d ≠ f ∧ d <+: f) := by
  have hwritten : ∀ p, p ∈ (reconcile fs0 arts).written ↔ p ∈ arts.map Prod.fst := by
    intro p
    show p ∈ (runWrites _ arts).written ↔ _
    rw [runWrites_written]
    simp
  have hfs : ∀ p, (reconcile fs0 arts).fs p
      = if p ∈ (runWrites { fs := fs0, written := [], log := [] } arts).written
        then (runWrites { fs := fs0, written := [], log := [] } arts).fs p
        else none := fun p => rfl
  refine ⟨?_, ?_, ?_⟩
  · intro p b
    rw [hfs p]
    by_cases hmem : p ∈ arts.map Prod.fst
    · rw [if_pos ((runWrites_written p arts _).mpr (Or.inr hmem))]
      have hrw := runWrites_fs p arts { fs := fs0, written := [], log := [] }
      cases hl : lastWrite arts p with
      | some b' =>
        simp only [hl] at hrw
        rw [hrw, ← hl, lastWrite_eq_some_iff hnd]
      | none =>
        exfalso
        have hs := (lastWrite_isSome_iff arts p).mpr hmem
        rw [hl] at hs
        simp at hs
    · rw [if_neg (by
        intro hw
        rcases (runWrites_written p arts _).mp hw with h | h
        · exact absurd h (List.not_mem_nil p)
        · exact hmem h)]
      constructor
      · intro h
        exact absurd h (by simp)
      · intro h
        exact absurd (List.mem_map.mpr ⟨(p, b), h, rfl⟩) hmem
  · intro p
    rw [hfs p, hwritten p]
    by_cases hmem : p ∈ arts.map Prod.fst
    · rw [if_pos ((runWrites_written p arts _).mpr (Or.inr hmem))]
      have hrw := runWrites_fs p arts { fs := fs0, written := [], log := [] }
      cases hl : lastWrite arts p with
      | some b' =>
        simp only [hl] at hrw
        rw [hrw]
        simp [hmem]
      | none =>
        exfalso
        have hs := (lastWrite_isSome_iff arts p).mpr hmem
        rw [hl] at hs
        simp at hs
    · rw [if_neg (by
        intro hw
        rcases (runWrites_written p arts _).mp hw with h | h
        · exact absurd h (List.not_mem_nil p)
        · exact hmem h)]
      simp [hmem]
  · intro dirs d hd
    have hfix := pruneDirs_fixpoint (arts.map Prod.fst) dirs.length dirs le_rfl
    exact fixpoint_has_file hfix
      (maxLen (pruneDirs dirs.length (arts.map Prod.fst) dirs)) d hd (Nat.sub_le _ _)

/-- Claim C4 witness: reconciling the fixture tree (one stale file at
`fixturePath`) against the single artifact `(["a"], [7])` leaves
exactly that artifact on disk, deletes the stale file, and the lone
empty directory `["d"]` is removed. -/
theorem reconcile_spec_witness :
    ((reconcile fixtureState.fs [(["a".toList], [7])]).fs ["a".toList] = some [7]
      ↔ ((["a".toList], ([7] : Bytes)) ∈ [(["a".toList], ([7] : Bytes))])) :=
  (reconcile_spec fixtureState.fs [(["a".toList], [7])] (by decide)).1 ["a".toList] [7]

/-! ### Lemmas for the load phase (claims C5 and C9) -/

lemma load_post_eq_none_of_invalid {src : PostSrc}
    (hidx : src.hasIndex = true)
    (hbad : src.front = none
      ∨ (∃ m, src.front = some m ∧ (m.url = none ∨ m.title = none ∨ m.date = none))
      ∨ (∃ m u, src.front = some m ∧ m.url = some u ∧ m.draft = false
          ∧ parse_post_url u = none)) :
    load_post src = none := by
  rcases hbad with h | ⟨m, hm, hkey⟩ | ⟨m, u, hm, hu, hdr, hparse⟩
  · simp [load_post, hidx, h]
  · obtain ⟨mu, mt, md, mdr, mun, mtg⟩ := m
    cases mu <;> cases mt <;> cases md <;> simp_all [load_post, hidx]
  · obtain ⟨mu, mt, md, mdr, mun, mtg⟩ := m
    simp only [FrontMatter.url] at hu
    simp only [FrontMatter.draft] at hdr
    subst hu
    subst hdr
    cases mt <;> cases md <;> simp_all [load_post, hidx]

lemma loadPosts_eq_none {srcs : List PostSrc}
    (h : ∃ src ∈ srcs, load_post src = none) : loadPosts srcs = none := by
  induction srcs with
  | nil =>
    obtain ⟨src, hmem, _⟩ := h
    exact absurd hmem (List.not_mem_nil src)
  | cons s rest ih =>
    obtain ⟨src, hmem, hnone⟩ := h
    rcases List.mem_cons.mp hmem with h' | h'
    · subst h'
      simp [loadPosts, hnone]
    · cases hls : load_post s with
      | none => simp [loadPosts, hls]
      | some p => simp [loadPosts, hls, ih ⟨src, h', hnone⟩]

/-- Claim C5: if any post source fails load-time validation — front
matter that cannot be split or parsed (`front = none`), a missing
required key (`url`/`title`/`date`), or a malformed URL on a non-draft
post — the generate run reports failure and performs no output
mutation: the filesystem is returned exactly as it was and the write
log is empty (no write occurred; in the model directory creation and
deletion likewise only happen inside the reconcile phase, which is
never reached). -/
theorem generate_aborts_before_mutation (R : Renderers) (secret : Bytes) (fs0 : Fs)
    (srcs : List PostSrc)
    (hbad : ∃ src ∈ srcs, src.hasIndex = true ∧
      (src.front = none
        ∨ (∃ m, src.front = some m ∧ (m.url = none ∨ m.title = none ∨ m.date = none))
        ∨ (∃ m u, src.front = some m ∧ m.url = some u ∧ m.draft = false
            ∧ parse_post_url u = none))) :
    (cmd_generate R secret fs0 srcs).1.fs = fs0
    ∧ (cmd_generate R secret fs0 srcs).1.log = []
    ∧ (cmd_generate R secret fs0 srcs).2 = false := by
  obtain ⟨src, hmem, hidx, hb⟩ := hbad
  have hnone : load_post src = none := load_post_eq_none_of_invalid hidx hb
  have hl : loadPosts srcs = none := loadPosts_eq_none ⟨src, hmem, hnone⟩
  refine ⟨?_, ?_, ?_⟩ <;> simp [cmd_generate, hl]

/-- Claim C5 witness: a source missing the required `date` key aborts
the run over the fixture tree with no write performed. -/
theorem generate_aborts_before_mutation_witness :
    (cmd_generate fixtureRenderers [] fixtureState.fs [fixtureSrcBad]).1.log = []
    ∧ (cmd_generate fixtureRenderers [] fixtureState.fs [fixtureSrcBad]).2 = false :=
  ⟨(generate_aborts_before_mutation fixtureRenderers [] fixtureState.fs [fixtureSrcBad]
      ⟨fixtureSrcBad, List.mem_cons_self _ _, rfl,
        Or.inr (Or.inl ⟨_, rfl, Or.inr (Or.inr rfl)⟩)⟩).2.1,
   (generate_aborts_before_mutation fixtureRenderers [] fixtureState.fs [fixtureSrcBad]
      ⟨fixtureSrcBad, List.mem_cons_self _ _, rfl,
        Or.inr (Or.inl ⟨_, rfl, Or.inr (Or.inr rfl)⟩)⟩).2.2⟩

/-- Claim C10: the aggregate feed holds one entry per post for at most
the 20 newest public posts: the entry list is exactly the first 20
elements of the descending public post list, so its size is
`min 20 N`, any post at index `i ≥ 20` of the list is omitted from the
feed — while its own page artifact is still part of the same run's
computed artifact set (it remains published elsewhere in the output
tree). -/
theorem posts_feed_limit (R : Renderers) (secret : Bytes) (posts : List Post)
    (hnd : posts.Nodup) (i : Nat) (h20 : 20 ≤ i) (hi : i < posts.length) :
    feed_entries posts = posts.take 20
    ∧ (feed_entries posts).length = min 20 posts.length
    ∧ posts.get ⟨i, hi⟩ ∉ feed_entries posts
    ∧ (∀ p ∈ posts, (p.pathParts ++ [indexHtmlSeg])
        ∈ (compute_artifacts R secret posts).map Prod.fst) := by
  refine ⟨rfl, List.length_take 20 posts, ?_, ?_⟩
  · have hsplit : posts = posts.take 20 ++ posts.drop 20 :=
      (List.take_append_drop 20 posts).symm
    have hnd' : (posts.take 20 ++ posts.drop 20).Nodup := by rw [← hsplit]; exact hnd
    have hdisj := (List.nodup_append.mp hnd').2.2
    have hlen20 : (posts.take 20).length = 20 := by
      rw [List.length_take]
      omega
    have hmem : posts.get ⟨i, hi⟩ ∈ posts.drop 20 := by
      obtain ⟨j, rfl⟩ : ∃ j, i = 20 + j := ⟨i - 20, by omega⟩
      have hj : j < (posts.drop 20).length := by
        rw [List.length_drop]
        omega
      have hidx : (posts.drop 20)[j] = posts[20 + j] := List.getElem_drop posts
      rw [show posts.get ⟨20 + j, hi⟩ = posts[20 + j] from rfl, ← hidx]
      exact List.getElem_mem hj
    intro habs
    exact hdisj habs hmem
  · intro p hp
    have hmem : (p.pathParts ++ [indexHtmlSeg], R.postPage p)
        ∈ compute_artifacts R secret posts := by
      unfold compute_artifacts
      refine List.mem_append.mpr (Or.inl ?_)
      refine List.mem_append.mpr (Or.inl ?_)
      refine List.mem_append.mpr (Or.inl ?_)
      refine List.mem_append.mpr (Or.inl ?_)
      refine List.mem_append.mpr (Or.inl ?_)
      exact List.mem_flatMap.mpr ⟨p, hp, by simp⟩
    exact List.mem_map.mpr ⟨_, hmem, rfl⟩

/-- Claim C10 witness: with 21 distinct posts, the 21st (index 20) is
not among the feed entries. -/
theorem posts_feed_limit_witness :
    fixtureManyPosts.get ⟨20, by decide⟩ ∉ feed_entries fixtureManyPosts :=
  (posts_feed_limit fixtureRenderers [] fixtureManyPosts (by decide) 20 (by decide)
    (by decide)).2.2.1

end Ssg
